import Mathlib

/-!
Shallow embedding of the coil concurrency toolkit (src/coilth and src/coil)
and verification of its specification claims.

Conventions used throughout:
* Python objects that are compared by identity (Group instances, Mailbox
  instances, mutex handles) are represented by numeric object ids allocated
  from a counter threaded through the state.
* Blocking operations are modelled by making the suspension observable
  (an `Option`/`Except` result where `none`/`error` marks the suspension or
  the raised exception).
* Unbounded Python loops are modelled with an explicit fuel parameter; a
  result of `.error .fuelOut` (or `none`) means the fuel was exhausted.
* Python `deque` ends: the head of a Lean list is the LEFT end of the deque,
  so `appendleft x d = x :: d`, `popleft` takes the head, `pop` takes the
  last element.
-/

/-! ### coilth/cogs.py: Lock over the external coil core mutex -/

/-- The external native mutex handle created by `cc.MutexLock()`.  Only its
locked flag is observable through `get_locked`. -/
structure MutexLock where
  mlocked : Bool
deriving Repr, DecidableEq

/-- Modelled from the spec: `coil_core` is an external native capability and
its `MutexLock.release` is not part of src/.  The spec rationale for the
wrapper (section 4.1: callers should never hit a native failure on
double-release; the guard in `cogs.Lock.release` exists precisely to avoid
releasing an unheld native mutex) implies that releasing an unheld native
mutex is a native error; we model that error as `Except.error`. -/
def MutexLock.ccRelease (m : MutexLock) : Except String MutexLock :=
  if m.mlocked then Except.ok ⟨false⟩
  else Except.error "native mutex released while not held"

/-- `cc.MutexLock.acquire`: blocks while held (modelled as `none`),
otherwise takes the mutex. -/
def MutexLock.ccAcquire (m : MutexLock) : Option MutexLock :=
  if m.mlocked then none else some ⟨true⟩

/-- `coilth.cogs.Lock`: wrapper that owns a native mutex. -/
structure Lock where
  inner : MutexLock
deriving Repr, DecidableEq

/-- `Lock.get_locked()` (the method actually being called). -/
def Lock.get_locked (l : Lock) : Bool :=
  l.inner.mlocked

/-- The truthiness of the *bound method object* `self.get_locked` as it is
used (uncalled) in `Lock.release`: a Python bound method is always truthy,
independently of the lock state. -/
def Lock.get_locked_method_truthy (_l : Lock) : Bool :=
  true

/-- `Lock.release` as written in src/coilth/cogs.py lines 54-58: the guard
tests `not self.get_locked` on the *uncalled* bound method, so it never
fires, and the native release is always forwarded. -/
def Lock.release (l : Lock) : Except String Lock :=
  if ¬ l.get_locked_method_truthy then Except.ok l
  else (l.inner.ccRelease).map fun m => ⟨m⟩

/-- The guard as evidently intended (calling `get_locked()`): release of an
unheld lock returns without touching the native mutex. -/
def Lock.releaseGuardCalled (l : Lock) : Except String Lock :=
  if ¬ l.get_locked then Except.ok l
  else (l.inner.ccRelease).map fun m => ⟨m⟩

/-- `Lock.acquire`. -/
def Lock.acquire (l : Lock) : Option Lock :=
  (l.inner.ccAcquire).map fun m => ⟨m⟩

/-- A fresh `Lock()` is unlocked. -/
def Lock.new : Lock :=
  ⟨⟨false⟩⟩

/-- The observable outcome of the sequence `acquire; release; release` on a
fresh lock, as the claim describes it. -/
def lockAcquireReleaseRelease : Except String Lock :=
  match Lock.new.acquire with
  | none => Except.error "acquire blocked"
  | some l1 =>
    match l1.release with
    | Except.error e => Except.error e
    | Except.ok l2 => l2.release

/-! ### coilth/sync.py: Notification -/

/-- The loop `for _ in range(count): self._waiters.popleft().release()`;
`popleft` on an empty deque raises `IndexError`, modelled as `none`.
Returns the released waiters in pop order together with the remaining
queue. -/
def notifyLoop : Nat → List Nat → Option (List Nat × List Nat)
  | 0, ws => some ([], ws)
  | _ + 1, [] => none
  | n + 1, w :: ws => (notifyLoop n ws).map fun p => (w :: p.1, p.2)

/-- `Notification.notify(count)` over a waiter queue (waiters listed in
enqueue order, oldest first): early return when there are no waiters,
otherwise pop-and-release `count` times. -/
def Notification.notify (waiters : List Nat) (count : Nat) :
    Option (List Nat × List Nat) :=
  if waiters.length = 0 then some ([], waiters)
  else notifyLoop count waiters

/-! ### coilth/sync.py: Queue -/

/-- Overflow policies of `Queue`. -/
inductive Overflow where
  | RAISE
  | BLOCK
  | DROP
deriving Repr, DecidableEq

/-- `coilth.sync.Queue` state: the bounded deque plus its policy. -/
structure Queue where
  inner : List Nat
  maxSize : Option Nat
  overflowBehavior : Overflow
deriving Repr, DecidableEq

/-- `deque.append` on a deque constructed with `maxlen`: when the deque is
full the leftmost (oldest) element is evicted to make room for the new
rightmost element; a `maxlen` of zero keeps the deque empty. -/
def dequeAppend (elems : List Nat) (maxlen : Option Nat) (x : Nat) : List Nat :=
  match maxlen with
  | none => elems ++ [x]
  | some m =>
    if elems.length = m then (if m = 0 then elems else elems.tail ++ [x])
    else elems ++ [x]

/-- Result of `Queue.add`: either the `ValueError` raise (queue unchanged,
carried for inspection), or the new queue contents together with whether
the caller first suspended on `_popped_element` (BLOCK policy). -/
inductive AddResult where
  | raised (unchanged : List Nat)
  | added (q : List Nat) (blockedFirst : Bool)
deriving Repr, DecidableEq

/-- `Queue.add(item)` from src/coilth/sync.py lines 201-216: the full check
compares `len` with `maxlen` (never equal when `maxlen` is `None`); RAISE
raises before mutating; BLOCK waits then falls through to the append; DROP
falls through to the append directly, so the bounded deque evicts its
oldest element. -/
def Queue.add (q : Queue) (x : Nat) : AddResult :=
  let isFull : Bool := match q.maxSize with
    | some m => q.inner.length = m
    | none => false
  if isFull then
    match q.overflowBehavior with
    | Overflow.RAISE => AddResult.raised q.inner
    | Overflow.BLOCK => AddResult.added (dequeAppend q.inner q.maxSize x) true
    | Overflow.DROP => AddResult.added (dequeAppend q.inner q.maxSize x) false
  else
    AddResult.added (dequeAppend q.inner q.maxSize x) false

/-- The queue contents after an `add`, whatever the outcome was. -/
def AddResult.contents : AddResult → List Nat
  | AddResult.raised l => l
  | AddResult.added l _ => l

/-! ### coilth/jobs.py: Retry -/

/-- Extended-natural failure bounds: `none` is `float("inf")` (the default
for an absent bound). -/
def toBound : Option Nat → Option Nat
  | none => none
  | some n => if n = 0 then none else some n

/-- The attribute assignment in `Retry.__init__` (src/coilth/jobs.py lines
98-101): the tuple target is `(_max_fails_total, _max_consecutive_fails)`
while the sources are built from `max_consecutive_fails` and
`max_total_fails` in that order, so the two bounds land on the crossed
attributes. -/
def Retry.initAttrs (max_consecutive_fails max_total_fails : Option Nat) :
    Option Nat × Option Nat :=
  (toBound max_consecutive_fails, toBound max_total_fails)

/-- Maximum of two extended naturals (`none` = infinity), as computed by
`max(self._max_consecutive_fails, self._max_fails_total)`. -/
def boundMax : Option Nat → Option Nat → Option Nat
  | none, _ => none
  | _, none => none
  | some a, some b => some (max a b)

/-- One `while True` iteration of `Retry.promise.run` with an
always-failing `fn` and no crash manager: increment `fails`, escalate when
`fails > max_fails`.  Returns the total number of failures at the moment
the last error is re-raised, or `none` when the fuel runs out (the loop
would keep retrying). -/
def retryRunLoop (maxFails : Option Nat) : Nat → Nat → Option Nat
  | 0, _ => none
  | fuel + 1, fails =>
    let fails := fails + 1
    match maxFails with
    | none => retryRunLoop maxFails fuel fails
    | some m => if fails > m then some fails else retryRunLoop maxFails fuel fails

/-- Number of invocations of an always-failing `fn` performed by
`Retry(fn, None, mc, mt).promise(submit).result()` before the last error
escalates (with enough fuel to reach the escalation). -/
def retryEscalationCount (mc mt : Option Nat) (fuel : Nat) : Option Nat :=
  let attrs := Retry.initAttrs mc mt
  retryRunLoop (boundMax attrs.2 attrs.1) fuel 0

/-! ### coil/mailbox.py: Mailbox inbox discipline (send delivers with
`appendleft`, `get` pops from the right) -/

/-- A delivered message: the group object id it was sent in plus the
content. -/
structure Message where
  group : Nat
  content : Nat
deriving Repr, DecidableEq

/-- The inbox contents after delivering the listed messages in order, each
via `messages.appendleft` (head of the list = left end = newest). -/
def inboxAfterSends (ms : List Message) : List Message :=
  ms.foldl (fun inbox m => m :: inbox) []

/-- `Mailbox.get()`: when the inbox is empty the caller suspends on the
arrival notification (modelled as `none`); otherwise `messages.pop()`
removes and returns the rightmost (earliest delivered) element. -/
def Mailbox.get (inbox : List Message) : Option (Message × List Message) :=
  match inbox.getLast? with
  | none => none
  | some m => some (m, inbox.dropLast)

/-! ### coil/threads.py: Pool submission, imap and map -/

/-- A `Task` record as appended to the pool deque by `submit`: the captured
callable with its argument plus the id of the owning free-standing
`Promise`. -/
structure PTask where
  pid : Nat
  fn : Nat → Nat
  arg : Nat

/-- Pool state relevant to `imap`/`map`: the task deque, the promise id
counter, and the promise store written by `_update` when a worker finishes
a task (`none` = promise not FINISHED yet). -/
structure PoolSt where
  tasks : List PTask
  nextId : Nat
  store : Nat → Option Nat

/-- A pool with no submissions and no finished promises. -/
def PoolSt.empty : PoolSt :=
  ⟨[], 0, fun _ => none⟩

/-- `Pool.submit(fn, x)`: create a fresh promise, append the task to the
deque, return the promise. -/
def PoolSt.submit (st : PoolSt) (f : Nat → Nat) (x : Nat) : PoolSt × Nat :=
  ({ st with tasks := st.tasks ++ [⟨st.nextId, f, x⟩], nextId := st.nextId + 1 },
   st.nextId)

/-- `Pool.imap(fn, xs)`: submit every element in list order, collecting the
promises in the same order. -/
def PoolSt.imap (st : PoolSt) (f : Nat → Nat) (xs : List Nat) :
    PoolSt × List Nat :=
  xs.foldl
    (fun acc x =>
      let s := acc.1.submit f x
      (s.1, acc.2 ++ [s.2]))
    (st, [])

/-- A worker executing one task (`__worker` body): run the callable on its
argument and `_update` the task promise with the FINISHED result. -/
def PoolSt.execTask (st : PoolSt) (t : PTask) : PoolSt :=
  { st with store := fun k => if k = t.pid then some (t.fn t.arg) else st.store k }

/-- The workers collectively executing tasks in an arbitrary interleaving:
`order` lists the tasks in the order their FINISHED updates land. -/
def PoolSt.runTasks (st : PoolSt) (order : List PTask) : PoolSt :=
  order.foldl PoolSt.execTask st

/-- `Promise.result()` for a pool promise after the workers ran: read the
stored FINISHED value. -/
def PoolSt.result (st : PoolSt) (pid : Nat) : Option Nat :=
  st.store pid

/-- `Pool.map(fn, xs)` observed after the workers executed the deque in
interleaving `order`: join each promise of `imap` in order. -/
def poolMapRun (f : Nat → Nat) (xs : List Nat) (order : List PTask) :
    List (Option Nat) :=
  let s := PoolSt.empty.imap f xs
  (s.2).map (s.1.runTasks order).result

/-! ### coil/mailbox.py: Group objects, interning table, topic graph -/

/-- Python strings are modelled as character lists so that every string
operation the code performs is a structurally recursive computation. -/
abbrev PyStr := List Char

/-- `name.split("/")`: split on every slash, keeping empty segments (an
empty string splits to one empty segment, exactly as in Python). -/
def splitSlashAux : PyStr → PyStr → List PyStr
  | [], acc => [acc.reverse]
  | c :: rest, acc =>
    if c = '/' then acc.reverse :: splitSlashAux rest []
    else splitSlashAux rest (c :: acc)

/-- `name.split("/")`. -/
def splitSlash (s : PyStr) : List PyStr :=
  splitSlashAux s []

/-- `"/".join(parts)`. -/
def joinSlash : List PyStr → PyStr
  | [] => []
  | [p] => p
  | p :: ps => p ++ '/' :: joinSlash ps

/-- A `Group` instance on the Python heap: its identity (`objId`), its
canonical name, its parent reference and its children set (kept in
insertion order). -/
structure GObj where
  objId : Nat
  name : PyStr
  parent : Option Nat
  children : List Nat
deriving Repr, DecidableEq

/-- Global state mutated by the `Group` constructor: the heap of allocated
instances, the class-level `Group.groups` interning table, and the
allocation counter providing object identity. -/
structure BusSt where
  heap : List GObj
  groupsTab : List (PyStr × Nat)
  nextObj : Nat
deriving Repr, DecidableEq

/-- The pristine state: no Group has ever been constructed. -/
def BusSt.empty : BusSt :=
  ⟨[], [], 0⟩

/-- `list(filter(None, name.split("/")))`. -/
def canonParts (s : PyStr) : List PyStr :=
  (splitSlash s).filter fun p => p ≠ []

/-- The canonical name: split on `/`, drop empty segments, rejoin. -/
def canonName (s : PyStr) : PyStr :=
  joinSlash (canonParts s)

/-- Dereference a Group object id on the heap. -/
def findG (heap : List GObj) (gid : Nat) : Option GObj :=
  heap.find? fun o => o.objId = gid

/-- `Group(prefix).children.add(self)`: set-insert `gid` into the children
of the object `pid`. -/
def updChildren (st : BusSt) (pid gid : Nat) : BusSt :=
  { st with
    heap := st.heap.map fun o =>
      if o.objId = pid then
        { o with children := if gid ∈ o.children then o.children else o.children ++ [gid] }
      else o }

/-- `self.parent = Group(...)`: store the parent reference. -/
def setParent (st : BusSt) (gid pid : Nat) : BusSt :=
  { st with
    heap := st.heap.map fun o =>
      if o.objId = gid then { o with parent := some pid } else o }

/-- The strict-prefix names visited by the `for idx, _ in enumerate(parts)`
loop of `Group.__init__` (index 0 skipped): `"/".join(parts[0:idx])`. -/
def prefixNames (parts : List PyStr) : List PyStr :=
  ((List.range parts.length).drop 1).map fun i => joinSlash (parts.take i)

/-- The body of the prefix loop: construct (or re-enter) each prefix Group
and add the new instance to its children. -/
def foldPrefixes (mk : BusSt → PyStr → Option (BusSt × Nat)) (gid : Nat) :
    BusSt → List PyStr → Option BusSt
  | st, [] => some st
  | st, p :: ps =>
    match mk st p with
    | none => none
    | some (st2, pid) => foldPrefixes mk gid (updChildren st2 pid gid) ps

/-- `Group.__new__` + `Group.__init__` (src/coil/mailbox.py lines 27-58),
fuel-bounded for the recursive constructor calls.  `__new__` consults the
`Group.groups` table (which no code ever writes to); on a miss a fresh
instance is allocated and `__init__` canonicalises the name, adds the
instance to the children of every freshly constructed strict prefix, and
for a multi-segment non-wildcard name constructs the `<prefix>/...`
wildcard parent.  `none` models either exhausted fuel or the `IndexError`
that `parts[-1]` raises on a name with no segments. -/
def mkGroupGo : Nat → BusSt → PyStr → Option (BusSt × Nat)
  | 0, _, _ => none
  | fuel + 1, st, name =>
    match st.groupsTab.lookup name with
    | some gid => some (st, gid)
    | none =>
      let gid := st.nextObj
      let parts := canonParts name
      let st1 : BusSt :=
        { heap := st.heap ++ [⟨gid, joinSlash parts, none, []⟩],
          groupsTab := st.groupsTab,
          nextObj := gid + 1 }
      match foldPrefixes (mkGroupGo fuel) gid st1 (prefixNames parts) with
      | none => none
      | some st2 =>
        match parts.getLast? with
        | none => none
        | some lastPart =>
          if 1 < parts.length ∧ lastPart ≠ "...".toList then
            match mkGroupGo fuel st2 (joinSlash parts.dropLast ++ "/...".toList) with
            | none => none
            | some (st3, pid) => some (setParent st3 gid pid, gid)
          else
            some (st2, gid)

/-- `Group(name)` with enough fuel for the constructor recursion (its depth
is bounded by twice the segment count). -/
def mkGroup (st : BusSt) (name : String) : Option (BusSt × Nat) :=
  mkGroupGo (2 * (canonParts name.toList).length + 4) st name.toList

/-! ### coil/mailbox.py: subscription table and send -/

/-- `Mailbox._subscribe`: `cls.chats.setdefault(group, set()).add(box)`. -/
def chatAdd (chats : List (Nat × List Nat)) (gid mbox : Nat) :
    List (Nat × List Nat) :=
  if (chats.lookup gid).isSome then
    chats.map fun e =>
      if e.1 = gid then (e.1, if mbox ∈ e.2 then e.2 else e.2 ++ [mbox]) else e
  else
    chats ++ [(gid, [mbox])]

/-- `Mailbox._unsubscribe`: `cls.chats[group].discard(box)`; indexing a
missing key raises `KeyError` (modelled as `none`), and the key itself is
never removed. -/
def chatRemove (chats : List (Nat × List Nat)) (gid mbox : Nat) :
    Option (List (Nat × List Nat)) :=
  if (chats.lookup gid).isSome then
    some (chats.map fun e => if e.1 = gid then (e.1, e.2.filter fun m => m ≠ mbox) else e)
  else
    none

/-- The policy value `MessageSentInGroup` returned by an extension. -/
structure MPolicy where
  cancel : Bool
  forwardTo : List Nat
  transform : Nat → Nat

/-- The dataclass defaults: no cancel, no forwards, identity transform. -/
def MPolicy.default : MPolicy :=
  ⟨false, [], id⟩

/-- The static tables consulted by `Mailbox.send`: the Group heap, the
`Mailbox.chats` subscription table (group object id to subscribed mailbox
ids) and the `Group.extensions` table (group object id to the
`message_sent_in_group` policy, which may return `None`). -/
structure SendCfg where
  heap : List GObj
  chats : List (Nat × List Nat)
  exts : List (Nat × (Nat → Option MPolicy))

/-- Ways a `send` evaluation can fail to produce a state: exhausted fuel, a
dangling Group reference, or a parent walk that never ends (both reference
errors are impossible for heaps built by the Group constructor). -/
inductive SendErr where
  | fuelOut
  | badRef
  | badWalk
deriving Repr, DecidableEq

/-- Mailbox inboxes: mailbox id to its message deque (head = newest). -/
abbrev Inb := Nat → List Message

/-- The empty inboxes. -/
def inbEmpty : Inb := fun _ => []

/-- The delivery loop: `appendleft` one message per subscribed mailbox (the
arrival notification wake is not part of the inbox state). -/
def deliverAll (subs : List Nat) (g c : Nat) (inb : Inb) : Inb :=
  subs.foldl (fun acc m => fun k => if k = m then ⟨g, c⟩ :: acc k else acc k) inb

/-- The `while current_group is not None` extension lookup walk: returns
`some none` when the walk ends with no extension found, `some (some p)` on
the nearest ancestor extension, `none` when the fuel runs out or a parent
reference dangles. -/
def extWalk (cfg : SendCfg) : Nat → Option Nat → Option (Option (Nat → Option MPolicy))
  | _, none => some none
  | 0, some _ => none
  | n + 1, some g =>
    match cfg.exts.lookup g with
    | some p => some (some p)
    | none =>
      match findG cfg.heap g with
      | none => none
      | some go => extWalk cfg n go.parent

/-- Sequencing of recursive sends over a list of target groups, skipping
the members of `skip` (the `if child in exclude: continue` test; forwards
pass an empty skip list). -/
def seqSendEx (snd : Nat → Inb → Except SendErr Inb) (skip : List Nat) :
    List Nat → Inb → Except SendErr Inb
  | [], inb => Except.ok inb
  | g :: gs, inb =>
    if g ∈ skip then seqSendEx snd skip gs inb
    else
      match snd g inb with
      | Except.error e => Except.error e
      | Except.ok inb2 => seqSendEx snd skip gs inb2

/-- The policy actually used by `send`: the default `MessageSentInGroup()`
when the parent walk found no extension, otherwise the value returned by
`message_sent_in_group` (again the default when it returned `None`). -/
def resolvePolicy (extPolicy : Option (Nat → Option MPolicy)) (c : Nat) : MPolicy :=
  match extPolicy with
  | none => MPolicy.default
  | some p => (p c).getD MPolicy.default

/-- Error propagation of a recursive send step into its continuation. -/
def exceptThen (r : Except SendErr Inb) (k : Inb → Except SendErr Inb) :
    Except SendErr Inb :=
  match r with
  | Except.error e => Except.error e
  | Except.ok inb => k inb

/-- The `if not response.cancel:` block of `Mailbox.send`: deliver one
message to every direct subscriber, recurse to the parent (when present
and not excluded) with `[group] + exclude`, then to each non-excluded
child with `[group] + exclude`.  `sendN` is the recursive send at the
remaining fuel. -/
def sendPhase1 (cfg : SendCfg)
    (sendN : Nat → Nat → List Nat → Inb → Except SendErr Inb)
    (g c2 : Nat) (excl : List Nat) (subs : List Nat) (resp : MPolicy)
    (inb : Inb) : Except SendErr Inb :=
  if resp.cancel then Except.ok inb
  else
    let inb1 := deliverAll subs g c2 inb
    match findG cfg.heap g with
    | none => Except.error SendErr.badRef
    | some go =>
      exceptThen
        (match go.parent with
         | none => Except.ok inb1
         | some pid =>
           if pid ∈ excl then Except.ok inb1
           else sendN pid c2 (g :: excl) inb1)
        (fun inb2 => seqSendEx (fun ch => sendN ch c2 (g :: excl)) excl go.children inb2)

/-- `Mailbox.send(group, content, exclude)` (src/coil/mailbox.py lines
92-134), fuel-bounded: return if the group is excluded; return if the
group has no entry in the subscription table; walk the parent chain for
the nearest extension and obtain the policy; transform the content;
unless cancelled, run the delivery/parent/children phase; finally,
cancelled or not, recurse to every forward target with the exclusion
reset to `[group]`. -/
def sendFuel (cfg : SendCfg) : Nat → Nat → Nat → List Nat → Inb → Except SendErr Inb
  | 0, _, _, _, _ => Except.error SendErr.fuelOut
  | fuel + 1, g, c, excl, inb =>
    if g ∈ excl then Except.ok inb
    else
      match cfg.chats.lookup g with
      | none => Except.ok inb
      | some subs =>
        match extWalk cfg (cfg.heap.length + 1) (some g) with
        | none => Except.error SendErr.badWalk
        | some extPolicy =>
          let resp := resolvePolicy extPolicy c
          let c2 := resp.transform c
          exceptThen (sendPhase1 cfg (sendFuel cfg fuel) g c2 excl subs resp inb)
            (fun inb3 => seqSendEx (fun fg => sendFuel cfg fuel fg c2 [g]) [] resp.forwardTo inb3)

/-! ### Concrete scenario traces -/

/-- The hierarchical-delivery scenario of the spec: mailbox 0 (M) subscribes
to `Group("a/b/c")`, mailbox 1 (N) subscribes to `Group("a/b/c/d")`, then
`Mailbox.send` is invoked on the same `a/b/c/d` instance with content 7.
Returns the two group object ids and the final inboxes of M and N. -/
def hierarchicalScenario : Option (Nat × Nat × List Message × List Message) := do
  let (st1, gc) ← mkGroup BusSt.empty "a/b/c"
  let chats1 := chatAdd [] gc 0
  let (st2, gd) ← mkGroup st1 "a/b/c/d"
  let chats2 := chatAdd chats1 gd 1
  let cfg : SendCfg := ⟨st2.heap, chats2, []⟩
  match sendFuel cfg 20 gd 7 [] inbEmpty with
  | Except.ok inb => some (gc, gd, inb 0, inb 1)
  | Except.error _ => none

/-- Constructing `Group("a")` twice from a pristine state: the object ids of
the two results and the final `Group.groups` table. -/
def doubleConstructGroupA : Option (Nat × Nat × List (PyStr × Nat)) := do
  let (st1, g1) ← mkGroup BusSt.empty "a"
  let (st2, g2) ← mkGroup st1 "a"
  some (g1, g2, st2.groupsTab)

/-- A group that was never subscribed, while its wildcard parent has a
subscriber (mailbox 5): the parent subscriber inbox after sending to the
group, and whether the group is absent from the subscription table. -/
def neverSubscribedScenario : Option (List Message × Bool) := do
  let (st1, g) ← mkGroup BusSt.empty "a/b"
  let go ← findG st1.heap g
  let pid ← go.parent
  let chats := chatAdd [] pid 5
  let cfg : SendCfg := ⟨st1.heap, chats, []⟩
  match sendFuel cfg 20 g 7 [] inbEmpty with
  | Except.ok inb => some (inb 5, (chats.lookup g).isNone)
  | Except.error _ => none

/-- Subscribe mailbox 6 to a group, unsubscribe it again (key stays with an
empty subscriber set), subscribe mailbox 7 to the wildcard parent, then
send to the group: the parent subscriber inbox and the final subscription
table. -/
def subThenUnsubScenario : Option (List Message × List (Nat × List Nat)) := do
  let (st1, g) ← mkGroup BusSt.empty "a/b"
  let go ← findG st1.heap g
  let pid ← go.parent
  let chats1 := chatAdd [] g 6
  let chats2 ← chatRemove chats1 g 6
  let chats3 := chatAdd chats2 pid 7
  let cfg : SendCfg := ⟨st1.heap, chats3, []⟩
  match sendFuel cfg 20 g 9 [] inbEmpty with
  | Except.ok inb => some (inb 7, chats3)
  | Except.error _ => none

/-- Two single-segment groups (object ids 0 and 1), each with a subscriber,
each carrying an extension whose policy forwards to the other. -/
def cycleCfg : SendCfg :=
  ⟨[⟨0, "a".toList, none, []⟩, ⟨1, "b".toList, none, []⟩],
   [(0, [100]), (1, [101])],
   [(0, fun _ => some ⟨false, [1], id⟩), (1, fun _ => some ⟨false, [0], id⟩)]⟩

/-- A top-level send that exhausts every fuel budget: the evaluation never
produces a state, however much fuel it is given. -/
def SendDiverges (cfg : SendCfg) (g c : Nat) : Prop :=
  ∀ fuel inb, sendFuel cfg fuel g c [] inb = Except.error SendErr.fuelOut

/-- The object ids present on the Group heap. -/
def heapIds (cfg : SendCfg) : List Nat :=
  cfg.heap.map GObj.objId

/-- The number of heap groups not yet excluded: the measure that shrinks
along every parent and child recursion of `send`. -/
def remCount (cfg : SendCfg) (excl : List Nat) : Nat :=
  ((heapIds cfg).filter fun i => i ∉ excl).length

/-- Well-formedness of a send configuration: every reference (parent,
child, subscription key) stays on the heap, the extension-lookup walk
terminates from every group, and every extension policy returns an empty
`forward_to` set. -/
structure SendWF (cfg : SendCfg) : Prop where
  parentClosed : ∀ go ∈ cfg.heap, ∀ p ∈ go.parent.toList, p ∈ heapIds cfg
  childClosed : ∀ go ∈ cfg.heap, ∀ ch ∈ go.children, ch ∈ heapIds cfg
  chatsClosed : ∀ e ∈ cfg.chats, e.1 ∈ heapIds cfg
  walkTotal : ∀ g ∈ heapIds cfg, (extWalk cfg (cfg.heap.length + 1) (some g)).isSome
  noForward : ∀ e ∈ cfg.exts, ∀ c r, e.2 c = some r → r.forwardTo = []

/-- The closed form of the task records appended by submitting `xs`
starting at promise id `i0`. -/
def mkTasks (f : Nat → Nat) : Nat → List Nat → List PTask
  | _, [] => []
  | i0, x :: xs => ⟨i0, f, x⟩ :: mkTasks f (i0 + 1) xs

/-- The closed form of the promise ids handed out for `n` submissions
starting at `i0` (consecutive, in submission order). -/
def pids : Nat → Nat → List Nat
  | _, 0 => []
  | i0, n + 1 => i0 :: pids (i0 + 1) n

/-! ### Theorems: C1 (Retry budget) -/

/-- C1: the claim says `Retry(fn, None, max_consecutive_fails=3,
max_total_fails=5)` with an always-failing fn escalates after 3
consecutive failures, the two bounds acting as independent limits.  The
code instead keeps one failure counter and compares it against
`max(bound, bound)` (after also crossing the constructor attributes), so
the last error is re-raised only on the 6th invocation. -/
theorem retry_budget_escalates_after_max_bound :
    retryEscalationCount (some 3) (some 5) 100 = some 6 ∧ (6 : Nat) ≠ 3 := by
  constructor
  · rfl
  · decide

/-! ### Theorems: C4 (Notification.notify) -/

/-- C4: the claim says `notify(n)` wakes exactly `min(n, k)` waiters and
never fails.  With one waiter and `n = 2` the loop runs `range(2)` and the
second `popleft` raises `IndexError` (the `none` outcome); the bordering
cases (enough waiters, or an empty queue) do behave as claimed. -/
theorem notification_notify_overcount_raises :
    Notification.notify [10] 2 = none
    ∧ Notification.notify [10, 20] 2 = some ([10, 20], [])
    ∧ Notification.notify [] 5 = some ([], []) := by
  refine ⟨rfl, rfl, rfl⟩

/-! ### Theorems: C6 (Group interning) -/

/-- C6: the claim says two constructions with the same canonical name
return the identical interned object.  No code ever writes to the
`Group.groups` table, so the second `Group("a")` misses the table and
allocates a fresh instance: the two constructions return object ids 0 and
1 and the interning table is still empty. -/
theorem group_construction_not_interned :
    doubleConstructGroupA = some (0, 1, []) ∧ (0 : Nat) ≠ 1 := by
  exact ⟨by decide, by decide⟩

/-! ### Theorems: C7 (Lock double release) -/

/-- C7: the claim says releasing an unheld Lock is a no-op.  The guard in
`Lock.release` tests `not self.get_locked` on the uncalled bound method,
which is always truthy, so the guard never fires and the second release of
`acquire; release; release` forwards to the native mutex while it is not
held.  With the intended call `self.get_locked()` the release would have
been the claimed no-op. -/
theorem lock_release_guard_dead :
    lockAcquireReleaseRelease = Except.error "native mutex released while not held"
    ∧ Lock.releaseGuardCalled Lock.new = Except.ok Lock.new := by
  exact ⟨rfl, rfl⟩

/-! ### Theorems: C2 (hierarchical delivery) -/

/-- C2: the claim says M (subscribed to `a/b/c`) receives a send to
`a/b/c/d` exactly once via the wildcard parent `a/b/c/...`.  In the code
the recursive send to the wildcard parent returns at the no-subscriber
check (nobody subscribes to `a/b/c/...`), the wildcard has no parent and
no children edge back to `a/b/c`, and the broken interning keeps every
re-construction of a prefix name a fresh object, so M receives the message
zero times while N (the direct subscriber) receives it once. -/
theorem hierarchical_send_misses_ancestor_subscriber :
    hierarchicalScenario = some (0, 12, [], [⟨12, 7⟩]) := by
  decide

/-! ### Theorems: C5 (Mailbox.get order) -/

/-- C5: the claim says `get()` pops the most-recent message (LIFO).
Delivering content 1 then content 2 leaves the inbox as `[m2, m1]`
(`appendleft`), and `get` (`pop()` from the right) returns the message
with content 1 — the oldest, not the claimed most-recent one. -/
theorem mailbox_get_returns_oldest_not_newest :
    Mailbox.get (inboxAfterSends [⟨0, 1⟩, ⟨0, 2⟩]) = some (⟨0, 1⟩, [⟨0, 2⟩])
    ∧ (⟨0, 1⟩ : Message) ≠ ⟨0, 2⟩ := by
  exact ⟨rfl, by decide⟩

/-! ### Shared helper lemmas -/

/-- A successful association-list lookup exhibits its key-value pair. -/
theorem lookup_mem_pairs {β : Type} (a : Nat) (l : List (Nat × β)) (b : β)
    (h : List.lookup a l = some b) : (a, b) ∈ l := by
  induction l with
  | nil => simp [List.lookup] at h
  | cons x xs ih =>
    rw [List.lookup] at h
    split at h
    · next heq =>
      cases h
      have ha : a = x.1 := by simpa using heq
      cases x
      simp_all
    · next => exact List.mem_cons_of_mem _ (ih h)

/-- Folding `appendleft` over a message list reverses it onto the
accumulator. -/
theorem foldl_cons_eq_reverse_append (l acc : List Message) :
    l.foldl (fun a m => m :: a) acc = l.reverse ++ acc := by
  induction l generalizing acc with
  | nil => simp
  | cons x xs ih => simp [ih, List.reverse_cons]

/-- The inbox after a sequence of deliveries is the reversed delivery
sequence (newest first). -/
theorem inboxAfterSends_eq_reverse (ms : List Message) :
    inboxAfterSends ms = ms.reverse := by
  rw [inboxAfterSends, foldl_cons_eq_reverse_append, List.append_nil]

/-! ### Theorems: C5 amended (FIFO consumption) -/

/-- C5 amended: when the inbox is non-empty, `get()` returns the
earliest-delivered message still in the inbox (FIFO relative to delivery
order, not the claimed LIFO), removing it from the right end of the deque;
when the inbox is empty, `get()` blocks on the arrival notification. -/
theorem mailbox_get_fifo_blocking (m : Message) (ms : List Message) :
    Mailbox.get (inboxAfterSends (m :: ms)) =
      some (m, (inboxAfterSends (m :: ms)).dropLast)
    ∧ Mailbox.get ([] : List Message) = none := by
  constructor
  · have h1 : inboxAfterSends (m :: ms) = (m :: ms).reverse :=
      inboxAfterSends_eq_reverse (m :: ms)
    rw [Mailbox.get, h1, List.getLast?_reverse]
    rfl
  · rfl

/-! ### Theorems: C8 (Queue overflow policy) -/

/-- C8 counterexample: the claim says DROP at capacity silently discards
the *incoming* item leaving the queued elements unchanged.  On a full
`Queue(1, DROP)` holding `[5]`, `add(9)` falls through to the bounded
deque append, which evicts the queued 5 and stores the incoming 9. -/
theorem queue_drop_evicts_oldest :
    Queue.add ⟨[5], some 1, Overflow.DROP⟩ 9 = AddResult.added [9] false
    ∧ ([9] : List Nat) ≠ [5] := by
  exact ⟨rfl, by decide⟩

/-- C8 amended: at capacity, RAISE raises with the queue unchanged and
DROP appends the incoming item while evicting the oldest queued element
(bounded-deque semantics); under every policy the resulting length stays
within the capacity. -/
theorem queue_add_at_capacity (q : Queue) (x m : Nat) (hm : q.maxSize = some m)
    (hle : q.inner.length ≤ m) :
    (q.inner.length = m → q.overflowBehavior = Overflow.RAISE →
        Queue.add q x = AddResult.raised q.inner)
    ∧ (q.inner.length = m → q.overflowBehavior = Overflow.DROP →
        Queue.add q x =
          AddResult.added (if m = 0 then q.inner else q.inner.tail ++ [x]) false)
    ∧ (Queue.add q x).contents.length ≤ m := by
  refine ⟨?_, ?_, ?_⟩
  · intro hfull hpol
    simp [Queue.add, hm, hfull, hpol]
  · intro hfull hpol
    simp [Queue.add, dequeAppend, hm, hfull, hpol]
  · by_cases hfull : q.inner.length = m
    · rcases hpol : q.overflowBehavior with _ | _ | _
      · simp [Queue.add, hm, hfull, hpol, AddResult.contents]
      · by_cases hz : m = 0
        · simp [Queue.add, dequeAppend, hm, hfull, hpol, AddResult.contents, hz]
        · simp [Queue.add, dequeAppend, hm, hfull, hpol, AddResult.contents, hz]
          have := List.length_tail_add_one q.inner (by omega)
          omega
      · by_cases hz : m = 0
        · simp [Queue.add, dequeAppend, hm, hfull, hpol, AddResult.contents, hz]
        · simp [Queue.add, dequeAppend, hm, hfull, hpol, AddResult.contents, hz]
          have := List.length_tail_add_one q.inner (by omega)
          omega
    · have hlt : q.inner.length < m := by omega
      simp [Queue.add, dequeAppend, hm, hfull, AddResult.contents]
      omega

/-- C8 witness: the amended statement applied to the concrete full queue
`Queue(1, RAISE)` holding `[5]`. -/
theorem queue_add_at_capacity_witness :
    Queue.add ⟨[5], some 1, Overflow.RAISE⟩ 9 = AddResult.raised [5]
    ∧ (Queue.add ⟨[5], some 1, Overflow.RAISE⟩ 9).contents.length ≤ 1 := by
  have h := queue_add_at_capacity ⟨[5], some 1, Overflow.RAISE⟩ 9 1 rfl (by decide)
  exact ⟨h.1 rfl rfl, h.2.2⟩

/-! ### Theorems: C10 (absent subscription key short-circuits send) -/

/-- C10: a send to a group that has no entry in the subscription table
returns immediately with every inbox unchanged (first conjunct, for every
configuration, content, exclusion list and inbox state); concretely, with
a subscriber on the wildcard parent, sending to the never-subscribed child
delivers nothing (second conjunct), while after subscribe-then-unsubscribe
the key remains with an empty subscriber set and the same send propagates
to the parent and delivers to its subscriber (third conjunct). -/
theorem send_absent_group_is_noop (cfg : SendCfg) (fuel g c : Nat)
    (excl : List Nat) (inb : Inb) (h : cfg.chats.lookup g = none) :
    sendFuel cfg (fuel + 1) g c excl inb = Except.ok inb
    ∧ neverSubscribedScenario = some ([], true)
    ∧ subThenUnsubScenario = some ([⟨2, 9⟩], [(0, []), (2, [7])]) := by
  refine ⟨?_, by decide, by decide⟩
  by_cases hx : g ∈ excl
  · simp [sendFuel, hx]
  · simp [sendFuel, hx, h]

/-- C10 witness: the no-op conjunct applied to the empty configuration. -/
theorem send_absent_group_is_noop_witness :
    sendFuel ⟨[], [], []⟩ 1 0 0 [] inbEmpty = Except.ok inbEmpty
    ∧ neverSubscribedScenario = some ([], true) := by
  have h := send_absent_group_is_noop ⟨[], [], []⟩ 0 0 0 [] inbEmpty rfl
  exact ⟨h.1, h.2.1⟩

/-! ### Theorems: C3 (send termination) -/

/-- Any fixed fuel is exhausted on the two-group forwarding cycle: from
either group, sending with the other group excluded reaches the forward
edge, which resets the exclusion to the sender alone and re-enters the
other group. -/
theorem cycle_send_fuelOut (fuel : Nat) :
    (∀ inb : Inb, sendFuel cycleCfg fuel 0 7 [1] inb = Except.error SendErr.fuelOut)
    ∧ (∀ inb : Inb, sendFuel cycleCfg fuel 1 7 [0] inb = Except.error SendErr.fuelOut) := by
  induction fuel with
  | zero => exact ⟨fun _ => rfl, fun _ => rfl⟩
  | succ n ih =>
    constructor
    · intro inb
      have h2 := ih.2 (deliverAll [100] 0 7 inb)
      show (match sendFuel cycleCfg n 1 7 [0] (deliverAll [100] 0 7 inb) with
            | Except.error e => Except.error e
            | Except.ok inb2 => Except.ok inb2) = Except.error SendErr.fuelOut
      rw [h2]
    · intro inb
      have h1 := ih.1 (deliverAll [101] 1 7 inb)
      show (match sendFuel cycleCfg n 0 7 [1] (deliverAll [101] 1 7 inb) with
            | Except.error e => Except.error e
            | Except.ok inb2 => Except.ok inb2) = Except.error SendErr.fuelOut
      rw [h1]

/-- C3 counterexample: the claim says every send terminates for every
extension configuration because the exclusion set grows along every
recursive edge.  Forward edges reset the exclusion set to `[group]`, so on
`cycleCfg` (two subscribed groups whose extensions forward to each other)
the top-level send from group 0 revisits the same two nodes forever: it
exhausts every fuel budget. -/
theorem send_forwarding_cycle_diverges : SendDiverges cycleCfg 0 7 := by
  intro fuel inb
  cases fuel with
  | zero => rfl
  | succ n =>
    have h2 := (cycle_send_fuelOut n).2 (deliverAll [100] 0 7 inb)
    show (match sendFuel cycleCfg n 1 7 [0] (deliverAll [100] 0 7 inb) with
          | Except.error e => Except.error e
          | Except.ok inb2 => Except.ok inb2) = Except.error SendErr.fuelOut
    rw [h2]

/-- Filtering by the grown exclusion list drops at least the newly
excluded group, strictly shrinking the count. -/
theorem length_filter_notmem_cons_lt (L : List Nat) (g : Nat) (excl : List Nat)
    (hg : g ∈ L) (hne : g ∉ excl) :
    ((L.filter fun i => i ∉ (g :: excl)).length : Nat)
      < (L.filter fun i => i ∉ excl).length := by
  have hsub : List.Sublist (L.filter fun i => i ∉ (g :: excl))
      (L.filter fun i => i ∉ excl) := by
    refine List.monotone_filter_right L ?_
    intro a ha
    simp only [decide_eq_true_eq, List.mem_cons, not_or] at ha ⊢
    exact ha.2
  rcases Nat.lt_or_ge (L.filter fun i => i ∉ (g :: excl)).length
      (L.filter fun i => i ∉ excl).length with h | h
  · exact h
  · exfalso
    have heq : (L.filter fun i => i ∉ (g :: excl)) = (L.filter fun i => i ∉ excl) :=
      hsub.eq_of_length (le_antisymm hsub.length_le h)
    have hmem : g ∈ L.filter fun i => i ∉ excl := by
      rw [List.mem_filter]
      exact ⟨hg, by simpa using hne⟩
    rw [← heq, List.mem_filter] at hmem
    simp at hmem

/-- The send measure strictly decreases when a non-excluded heap group is
added to the exclusion list. -/
theorem remCount_cons_lt (cfg : SendCfg) (g : Nat) (excl : List Nat)
    (hg : g ∈ heapIds cfg) (hne : g ∉ excl) :
    remCount cfg (g :: excl) < remCount cfg excl :=
  length_filter_notmem_cons_lt (heapIds cfg) g excl hg hne

/-- Dereferencing an id that is on the heap succeeds. -/
theorem findG_mem (heap : List GObj) (g : Nat) (hg : g ∈ heap.map GObj.objId) :
    ∃ go, findG heap g = some go ∧ go ∈ heap ∧ go.objId = g := by
  obtain ⟨go, hgo, hid⟩ := List.mem_map.mp hg
  have hsome : (findG heap g).isSome := by
    rw [findG, List.find?_isSome]
    exact ⟨go, hgo, by simp [hid]⟩
  rcases hf : findG heap g with _ | go2
  · rw [hf] at hsome; simp at hsome
  · refine ⟨go2, rfl, List.mem_of_find?_eq_some hf, ?_⟩
    have := List.find?_some hf
    simpa using this

/-- A policy returned by the extension walk is registered in the extension
table. -/
theorem extWalk_policy_mem (cfg : SendCfg) :
    ∀ (k : Nat) (og : Option Nat) (p : Nat → Option MPolicy),
      extWalk cfg k og = some (some p) → ∃ gx, (gx, p) ∈ cfg.exts := by
  intro k
  induction k with
  | zero =>
    intro og p h
    cases og with
    | none => simp [extWalk] at h
    | some g => simp [extWalk] at h
  | succ n ih =>
    intro og p h
    cases og with
    | none => simp [extWalk] at h
    | some g =>
      rw [extWalk] at h
      rcases he : cfg.exts.lookup g with _ | p2
      · rw [he] at h
        rcases hf : findG cfg.heap g with _ | go
        · rw [hf] at h; cases h
        · rw [hf] at h
          exact ih go.parent p h
      · rw [he] at h
        cases h
        exact ⟨g, lookup_mem_pairs g cfg.exts p he⟩

/-- Sequencing sends that all succeed succeeds. -/
theorem seqSendEx_ok (snd : Nat → Inb → Except SendErr Inb) (skip : List Nat)
    (h : ∀ a inb, ∃ r, snd a inb = Except.ok r) :
    ∀ (l : List Nat) (inb : Inb), ∃ r, seqSendEx snd skip l inb = Except.ok r := by
  intro l
  induction l with
  | nil => intro inb; exact ⟨inb, rfl⟩
  | cons a l ih =>
    intro inb
    by_cases ha : a ∈ skip
    · simpa [seqSendEx, ha] using ih inb
    · obtain ⟨r, hr⟩ := h a inb
      obtain ⟨r2, hr2⟩ := ih r
      refine ⟨r2, ?_⟩
      rw [seqSendEx, if_neg ha, hr]
      exact hr2

/-- The delivery/parent/children phase succeeds whenever the group is on
the heap and every recursive send with the grown exclusion succeeds. -/
theorem sendPhase1_ok (cfg : SendCfg)
    (sendN : Nat → Nat → List Nat → Inb → Except SendErr Inb)
    (g c2 : Nat) (excl : List Nat) (subs : List Nat) (resp : MPolicy)
    (inb : Inb) (go : GObj) (hfind : findG cfg.heap g = some go)
    (hN : ∀ a b inb2, ∃ r, sendN a b (g :: excl) inb2 = Except.ok r) :
    ∃ r, sendPhase1 cfg sendN g c2 excl subs resp inb = Except.ok r := by
  by_cases hcan : resp.cancel = true
  · exact ⟨inb, by rw [sendPhase1, if_pos hcan]⟩
  · rw [sendPhase1, if_neg hcan]
    simp only [hfind]
    rcases hpar : go.parent with _ | pid
    · simp only [hpar]
      obtain ⟨r2, hr2⟩ :=
        seqSendEx_ok (fun ch => sendN ch c2 (g :: excl)) excl
          (fun a inb2 => hN a c2 inb2) go.children (deliverAll subs g c2 inb)
      exact ⟨r2, by simp only [exceptThen]; exact hr2⟩
    · simp only [hpar]
      by_cases hpx : pid ∈ excl
      · rw [if_pos hpx]
        obtain ⟨r2, hr2⟩ :=
          seqSendEx_ok (fun ch => sendN ch c2 (g :: excl)) excl
            (fun a inb2 => hN a c2 inb2) go.children (deliverAll subs g c2 inb)
        exact ⟨r2, by simp only [exceptThen]; exact hr2⟩
      · rw [if_neg hpx]
        obtain ⟨r1, hr1⟩ := hN pid c2 (deliverAll subs g c2 inb)
        rw [hr1]
        obtain ⟨r2, hr2⟩ :=
          seqSendEx_ok (fun ch => sendN ch c2 (g :: excl)) excl
            (fun a inb2 => hN a c2 inb2) go.children r1
        exact ⟨r2, by simp only [exceptThen]; exact hr2⟩

/-- Under a no-forward configuration the resolved policy has an empty
forward set. -/
theorem resolvePolicy_noForward (cfg : SendCfg) (hwf : SendWF cfg)
    (extOpt : Option (Nat → Option MPolicy)) (c g : Nat)
    (hw : extWalk cfg (cfg.heap.length + 1) (some g) = some extOpt) :
    (resolvePolicy extOpt c).forwardTo = [] := by
  rcases extOpt with _ | p
  · rfl
  · rcases hp : p c with _ | r
    · simp [resolvePolicy, hp, MPolicy.default]
    · obtain ⟨gx, hgx⟩ := extWalk_policy_mem cfg (cfg.heap.length + 1) (some g) p hw
      have h2 := hwf.noForward (gx, p) hgx c r hp
      simp [resolvePolicy, hp, h2]

/-- C3 amended: the exclusion set grows along parent and child edges only;
forward edges reset it, and a forwarding cycle makes send diverge (see the
counterexample).  When every extension policy returns an empty
`forward_to` set, every send over a well-formed finite topic graph
terminates: fuel exceeding the count of not-yet-excluded groups cannot be
exhausted and the send produces a final inbox state. -/
theorem sendFuel_terminates_without_forwards (cfg : SendCfg) (hwf : SendWF cfg) :
    ∀ (fuel g c : Nat) (excl : List Nat) (inb : Inb),
      remCount cfg excl < fuel →
      ∃ inb2, sendFuel cfg fuel g c excl inb = Except.ok inb2 := by
  intro fuel
  induction fuel using Nat.strong_induction_on with
  | _ fuel IH =>
    intro g c excl inb hfuel
    cases fuel with
    | zero => exact absurd hfuel (Nat.not_lt_zero _)
    | succ n =>
      by_cases hx : g ∈ excl
      · exact ⟨inb, by rw [sendFuel, if_pos hx]⟩
      rcases hc : cfg.chats.lookup g with _ | subs
      · refine ⟨inb, ?_⟩
        rw [sendFuel, if_neg hx]
        simp only [hc]
      have hgmem : g ∈ heapIds cfg := by
        have h1 := hwf.chatsClosed (g, subs) (lookup_mem_pairs g cfg.chats subs hc)
        simpa using h1
      have hwalkSome := hwf.walkTotal g hgmem
      rcases hw : extWalk cfg (cfg.heap.length + 1) (some g) with _ | extOpt
      · rw [hw] at hwalkSome; simp at hwalkSome
      obtain ⟨go, hfind, hgoheap, hgoid⟩ :=
        findG_mem cfg.heap g (by simpa [heapIds] using hgmem)
      have hN : ∀ a b inb2, ∃ r,
          sendFuel cfg n a b (g :: excl) inb2 = Except.ok r := by
        intro a b inb2
        refine IH n (Nat.lt_succ_self n) a b (g :: excl) inb2 ?_
        have hdec := remCount_cons_lt cfg g excl hgmem hx
        omega
      obtain ⟨r1, hr1⟩ :=
        sendPhase1_ok cfg (sendFuel cfg n) g ((resolvePolicy extOpt c).transform c)
          excl subs (resolvePolicy extOpt c) inb go hfind hN
      refine ⟨r1, ?_⟩
      rw [sendFuel, if_neg hx]
      simp only [hc, hw]
      rw [hr1]
      simp only [exceptThen, resolvePolicy_noForward cfg hwf extOpt c g hw, seqSendEx]

/-- C3 witness: the amended termination statement applied to a concrete
one-group graph with a subscriber and no extensions, at fuel 2. -/
theorem sendFuel_terminates_without_forwards_witness :
    ∃ inb2, sendFuel ⟨[⟨0, "a".toList, none, []⟩], [(0, [100])], []⟩ 2 0 7 []
      inbEmpty = Except.ok inb2 := by
  refine sendFuel_terminates_without_forwards _ ?_ 2 0 7 [] inbEmpty (by decide)
  exact ⟨by decide, by decide, by decide, by decide, by simp⟩

/-! ### Theorems: C9 (Pool.map and Pool.imap input order) -/

/-- The `imap` fold in closed form: tasks are appended in input order with
consecutive promise ids, and the promises are returned in the same
order. -/
theorem imap_go (f : Nat → Nat) :
    ∀ (xs : List Nat) (st : PoolSt) (ps0 : List Nat),
      xs.foldl (fun acc x => let s := acc.1.submit f x; (s.1, acc.2 ++ [s.2])) (st, ps0)
      = ({ st with tasks := st.tasks ++ mkTasks f st.nextId xs,
                   nextId := st.nextId + xs.length },
         ps0 ++ pids st.nextId xs.length) := by
  intro xs
  induction xs with
  | nil =>
    intro st ps0
    simp [mkTasks, pids]
  | cons x xs ih =>
    intro st ps0
    rw [List.foldl_cons]
    show (xs.foldl (fun acc x => let s := acc.1.submit f x; (s.1, acc.2 ++ [s.2]))
      (st.submit f x |>.1, ps0 ++ [st.submit f x |>.2])) = _
    rw [ih]
    simp only [PoolSt.submit, mkTasks, pids, Prod.mk.injEq, PoolSt.mk.injEq,
      List.append_assoc, List.singleton_append, List.length_cons]
    refine ⟨⟨trivial, by omega, trivial⟩, trivial⟩

/-- A promise id no executed task owns is left untouched by the workers. -/
theorem runTasks_store_keep (p : Nat) :
    ∀ (ts : List PTask) (st : PoolSt), (∀ t ∈ ts, t.pid ≠ p) →
      (PoolSt.runTasks st ts).store p = st.store p := by
  intro ts
  induction ts with
  | nil => intro st _; rfl
  | cons t ts ih =>
    intro st h
    have hstep : PoolSt.runTasks st (t :: ts)
        = PoolSt.runTasks (PoolSt.execTask st t) ts := rfl
    rw [hstep, ih _ (fun t2 ht2 => h t2 (List.mem_cons_of_mem _ ht2))]
    have hne := h t (List.mem_cons_self t ts)
    simp [PoolSt.execTask, Ne.symm hne]

/-- After the workers execute every listed task (in any order), the
promise of a listed task holds that task's value, provided every task
sharing the promise id computes the same value. -/
theorem runTasks_store_mem :
    ∀ (ts : List PTask) (st : PoolSt) (t : PTask), t ∈ ts →
      (∀ t2 ∈ ts, t2.pid = t.pid → t2.fn t2.arg = t.fn t.arg) →
      (PoolSt.runTasks st ts).store t.pid = some (t.fn t.arg) := by
  intro ts
  induction ts with
  | nil => intro st t ht _; exact absurd ht (List.not_mem_nil t)
  | cons t2 ts ih =>
    intro st t ht hval
    have hstep : PoolSt.runTasks st (t2 :: ts)
        = PoolSt.runTasks (PoolSt.execTask st t2) ts := rfl
    rw [hstep]
    by_cases hrest : ∃ t3 ∈ ts, t3.pid = t.pid
    · obtain ⟨t3, ht3, hpid3⟩ := hrest
      have h3 := ih (PoolSt.execTask st t2) t3 ht3 ?hv
      · rw [hpid3] at h3
        rw [h3, hval t3 (List.mem_cons_of_mem _ ht3) hpid3]
      case hv =>
        intro t4 ht4 hp4
        rw [hval t4 (List.mem_cons_of_mem _ ht4) (hp4.trans hpid3),
            hval t3 (List.mem_cons_of_mem _ ht3) hpid3]
    · push_neg at hrest
      rw [runTasks_store_keep t.pid ts (PoolSt.execTask st t2) hrest]
      rcases List.mem_cons.mp ht with h | h
      · subst h
        simp [PoolSt.execTask]
      · exact absurd rfl (hrest t h)

/-- The task submitted for the j-th input is on the task deque. -/
theorem mkTasks_mem_of_index (f : Nat → Nat) :
    ∀ (xs : List Nat) (i0 j : Nat) (h : j < xs.length),
      (⟨i0 + j, f, xs.get ⟨j, h⟩⟩ : PTask) ∈ mkTasks f i0 xs := by
  intro xs
  induction xs with
  | nil => intro i0 j h; simp at h
  | cons x xs ih =>
    intro i0 j h
    cases j with
    | zero => simp [mkTasks]
    | succ j =>
      have hj : j < xs.length := by simpa using Nat.lt_of_succ_lt_succ h
      have hmem := ih (i0 + 1) j hj
      rw [mkTasks]
      refine List.mem_cons_of_mem _ ?_
      have harith : i0 + (j + 1) = (i0 + 1) + j := by omega
      simp only [harith, List.get_cons_succ]
      exact hmem

/-- Every task on the deque is the record of some input index. -/
theorem mem_mkTasks (f : Nat → Nat) :
    ∀ (xs : List Nat) (i0 : Nat) (t : PTask), t ∈ mkTasks f i0 xs →
      ∃ j, ∃ (h : j < xs.length), t = ⟨i0 + j, f, xs.get ⟨j, h⟩⟩ := by
  intro xs
  induction xs with
  | nil => intro i0 t ht; simp [mkTasks] at ht
  | cons x xs ih =>
    intro i0 t ht
    rw [mkTasks] at ht
    rcases List.mem_cons.mp ht with h | h
    · exact ⟨0, by simp, by simpa using h⟩
    · obtain ⟨j, hj, heq⟩ := ih (i0 + 1) t h
      refine ⟨j + 1, by simpa using Nat.succ_lt_succ hj, ?_⟩
      rw [heq]
      have harith : (i0 + 1) + j = i0 + (j + 1) := by omega
      simp [harith]

/-- Reading consecutive promise ids out of a store that maps the j-th id to
the j-th output reproduces the output list in input order. -/
theorem pids_map_store (f : Nat → Nat) (stF : PoolSt) :
    ∀ (xs : List Nat) (i0 : Nat),
      (∀ j (h : j < xs.length), stF.store (i0 + j) = some (f (xs.get ⟨j, h⟩))) →
      (pids i0 xs.length).map stF.store = xs.map (fun x => some (f x)) := by
  intro xs
  induction xs with
  | nil => intro i0 _; rfl
  | cons x xs ih =>
    intro i0 h
    show stF.store i0 :: (pids (i0 + 1) xs.length).map stF.store
        = some (f x) :: xs.map (fun x => some (f x))
    congr 1
    · have h0 := h 0 (by simp)
      simpa using h0
    · refine ih (i0 + 1) ?_
      intro j hj
      have hs := h (j + 1) (by simpa using Nat.succ_lt_succ hj)
      have harith : i0 + (j + 1) = (i0 + 1) + j := by omega
      rw [harith] at hs
      simpa using hs

/-- C9: `Pool.imap(fn, xs)` returns one promise per input element in input
order (consecutive promise ids in submission order), and `Pool.map(fn,
xs)` returns `[fn(x) for x in xs]` in input order: whatever order the
workers execute the submitted tasks in (any permutation of the deque),
joining the promises in order yields the mapped list. -/
theorem pool_map_preserves_input_order (f : Nat → Nat) (xs : List Nat)
    (order : List PTask)
    (hperm : List.Perm order (PoolSt.empty.imap f xs).1.tasks) :
    poolMapRun f xs order = xs.map (fun x => some (f x))
    ∧ (PoolSt.empty.imap f xs).2 = pids 0 xs.length := by
  have himap : PoolSt.empty.imap f xs
      = ({ PoolSt.empty with tasks := mkTasks f 0 xs, nextId := xs.length },
         pids 0 xs.length) := by
    rw [PoolSt.imap, imap_go]
    simp [PoolSt.empty]
  constructor
  · rw [poolMapRun, himap]
    refine pids_map_store f _ xs 0 ?_
    intro j h
    have ht : (⟨0 + j, f, xs.get ⟨j, h⟩⟩ : PTask) ∈ mkTasks f 0 xs :=
      mkTasks_mem_of_index f xs 0 j h
    have htOrd : (⟨0 + j, f, xs.get ⟨j, h⟩⟩ : PTask) ∈ order := by
      refine hperm.mem_iff.mpr ?_
      rw [himap]
      exact ht
    have hval : ∀ t2 ∈ order, t2.pid = (⟨0 + j, f, xs.get ⟨j, h⟩⟩ : PTask).pid →
        t2.fn t2.arg
          = (⟨0 + j, f, xs.get ⟨j, h⟩⟩ : PTask).fn (⟨0 + j, f, xs.get ⟨j, h⟩⟩ : PTask).arg := by
      intro t2 ht2 hp
      have ht2b : t2 ∈ mkTasks f 0 xs := by
        have hm := hperm.mem_iff.mp ht2
        rw [himap] at hm
        exact hm
      obtain ⟨j2, hj2, heq⟩ := mem_mkTasks f xs 0 t2 ht2b
      rw [heq] at hp ⊢
      have hj2j : j2 = j := by simpa using hp
      subst hj2j
      rfl
    have hstore := runTasks_store_mem order
      { PoolSt.empty with tasks := mkTasks f 0 xs, nextId := xs.length }
      ⟨0 + j, f, xs.get ⟨j, h⟩⟩ htOrd hval
    exact hstore
  · rw [himap]

/-- C9 witness: squaring `[1, 2, 3]` with the workers executing the deque
in reversed order still yields `[1, 4, 9]` in input order. -/
theorem pool_map_preserves_input_order_witness :
    poolMapRun (fun x => x * x) [1, 2, 3]
        ((PoolSt.empty.imap (fun x => x * x) [1, 2, 3]).1.tasks).reverse
      = [some 1, some 4, some 9]
    ∧ (PoolSt.empty.imap (fun x => x * x) [1, 2, 3]).2 = pids 0 3 := by
  have h := pool_map_preserves_input_order (fun x => x * x) [1, 2, 3] _
    (List.reverse_perm _)
  simpa using h
